import Mathlib

/-!
Verification of the lmdeploy turbomind llama kernel layer
(`src/turbomind/models/llama/llama_kernels.h`).

The repository snapshot ships only the kernel *declarations* (the header);
the kernel bodies (`llama_kernels.cu`) are not present.  Kernels are
therefore modelled from the specification, faithfully to its words; the
`dump` diagnostic, whose body is in the header, is embedded from the code.

Conventions of the embedding: device tensors become total functions from
`Nat` indexes to values, per-row length arrays become functions
`Nat → Nat`, and the numeric element type is kept abstract (`α`) where the
property is about bit-for-bit data movement, or `Int` where concrete
values matter.
-/

namespace Turbomind

/-! ## Mask builder (spec 4.4, data model item "Causal Mask") -/

/-- The additive-mask value used for a disallowed position: a large
negative number (the spec fixes only that it is "a large negative value";
the concrete constant is irrelevant to the claims). -/
def maskNegValue : Int := -(2 ^ 30)

/-- Modelled from the spec: one entry of a causal mask.  Missing from the
source: the kernel bodies behind `invokeCreateCausalMasks` and
`invokeSliceCausalMask` (`llama_kernels.cu` is not in the snapshot).
Per the spec's data model, position `(q, k)` is allowed iff
`k <= step + q` and `k < k_len` and `q < q_len`; an allowed position
holds `0`, a disallowed one holds a large negative value. -/
def causalMaskEntry (q_len k_len step q k : Nat) : Int :=
  if q < q_len ∧ k < k_len ∧ k ≤ step + q then 0 else maskNegValue

/-- Modelled from the spec: `invokeCreateCausalMasks` builds one mask per
batch row sized to that row's actual lengths, with `step = 0` (the
existing-context offset convention is carried by `causalMaskEntry`'s
`step` argument, which this entry point fixes to `0`). -/
def invokeCreateCausalMasks (q_lens k_lens : Nat → Nat) (row q k : Nat) : Int :=
  causalMaskEntry (q_lens row) (k_lens row) 0 q k

/-- Modelled from the spec: `invokeSliceCausalMask`, the single-sequence
decode specialization where `step` offsets which key positions are
already visible. -/
def invokeSliceCausalMask (seq_len key_len step q k : Nat) : Int :=
  causalMaskEntry seq_len key_len step q k

/-! ## Claim theorems for the mask builder -/

/-- Claim C1: for every batch row and every position `(q, k)`, the mask
produced by `invokeCreateCausalMasks` (and by `invokeSliceCausalMask`
with offset `step`) holds `0` (allowed) iff `k ≤ step + q` and
`k < k_len[row]` and `q < q_len[row]` (`step = 0` for
`invokeCreateCausalMasks`), and holds a large negative value at every
other position. -/
theorem createCausalMasks_allowed_iff
    (q_lens k_lens : Nat → Nat) (row q k seq_len key_len step : Nat) :
    (invokeCreateCausalMasks q_lens k_lens row q k = 0 ↔
      (k ≤ 0 + q ∧ k < k_lens row ∧ q < q_lens row)) ∧
    (¬(k ≤ 0 + q ∧ k < k_lens row ∧ q < q_lens row) →
      invokeCreateCausalMasks q_lens k_lens row q k = maskNegValue ∧
      invokeCreateCausalMasks q_lens k_lens row q k < -1000000) ∧
    (invokeSliceCausalMask seq_len key_len step q k = 0 ↔
      (k ≤ step + q ∧ k < key_len ∧ q < seq_len)) ∧
    (¬(k ≤ step + q ∧ k < key_len ∧ q < seq_len) →
      invokeSliceCausalMask seq_len key_len step q k = maskNegValue ∧
      invokeSliceCausalMask seq_len key_len step q k < -1000000) := by
  unfold invokeCreateCausalMasks invokeSliceCausalMask causalMaskEntry maskNegValue
  refine ⟨?_, ?_, ?_, ?_⟩
  · split
    · simp_all
    · simp_all
      omega
  · intro h
    split
    · omega
    · omega
  · split
    · simp_all
    · simp_all
      omega
  · intro h
    split
    · omega
    · omega

/-- Witness for C1: concrete evaluation at a disallowed position. -/
theorem createCausalMasks_allowed_iff_witness :
    invokeCreateCausalMasks (fun _ => 3) (fun _ => 4) 0 1 3 = maskNegValue ∧
    invokeCreateCausalMasks (fun _ => 3) (fun _ => 4) 0 1 3 < -1000000 :=
  ((createCausalMasks_allowed_iff (fun _ => 3) (fun _ => 4) 0 1 3 5 5 0).2.1
    (by decide))

/-- Claim C8: a batch row with `q_len = 0` yields a mask with no allowed
position: every entry of that row is the disallowed value.  (The model is
a total function, so the absence of out-of-bounds faults is inherent; the
statable content is that the whole row is disallowed.) -/
theorem createCausalMasks_qlen_zero_all_disallowed
    (q_lens k_lens : Nat → Nat) (row : Nat) (h : q_lens row = 0) :
    ∀ q k : Nat, invokeCreateCausalMasks q_lens k_lens row q k = maskNegValue ∧
      invokeCreateCausalMasks q_lens k_lens row q k ≠ 0 := by
  intro q k
  unfold invokeCreateCausalMasks causalMaskEntry maskNegValue
  split
  · omega
  · omega

/-- Witness for C8: a concrete batch whose row 0 has `q_len = 0`. -/
theorem createCausalMasks_qlen_zero_all_disallowed_witness :
    invokeCreateCausalMasks (fun _ => 0) (fun _ => 7) 0 2 3 = maskNegValue ∧
    invokeCreateCausalMasks (fun _ => 0) (fun _ => 7) 0 2 3 ≠ 0 :=
  createCausalMasks_qlen_zero_all_disallowed (fun _ => 0) (fun _ => 7) 0 rfl 2 3

/-! ## KV cache writer / reader (spec 4.2, 4.3) -/

/-- One layer of block-addressed KV cache, after resolving the
`k_dst_ptrs` / `cu_block_counts` address indirection: for each batch row,
an ordered list of fixed-capacity blocks, each holding per-head, per-slot
`head_dim`-vectors.  Indexes: row, block, head, slot, dim. -/
def KVCache (α : Type) : Type := Nat → Nat → Nat → Nat → Nat → α

/-- An abstract reduced-precision packing: `encode` quantizes a native
element with a per-(layer, head) scale, `decode` dequantizes.  Used only
when `quant_policy ≠ 0`; the claims here exercise `quant_policy = 0`. -/
structure QuantSpec (α : Type) where
  encode : Rat → α → α
  decode : Rat → α → α

/-- Modelled from the spec: the kernel body behind `invokeExtendKVCache`
(`llama_kernels.cu` is not in the snapshot).  For each batch row, tokens
`[context_length - query_length, context_length)` are new; each new token
at absolute position `p` lands in block `p / block_length` at intra-block
offset `p % block_length`, and its vector is copied there, quantizing
with `kv_scale` when `quant ≠ 0`.  `src` is indexed (row, token index
within the step, head, dim). -/
def extendKV {α : Type} (cache : KVCache α) (src : Nat → Nat → Nat → Nat → α)
    (query_length context_length : Nat → Nat)
    (batch_size block_length head_dim head_num quant : Nat)
    (kv_scale : Rat) (qs : QuantSpec α) : KVCache α :=
  fun row blk head slot dim =>
    if row < batch_size ∧ head < head_num ∧ dim < head_dim ∧ slot < block_length ∧
        context_length row - query_length row ≤ blk * block_length + slot ∧
        blk * block_length + slot < context_length row then
      let v := src row (blk * block_length + slot -
                  (context_length row - query_length row)) head dim
      if quant = 0 then v else qs.encode kv_scale v
    else
      cache row blk head slot dim

/-- Modelled from the spec: `invokeExtendKVCache` writes the key tensor
into the key cache and the value tensor into the value cache, with the
same geometry for both. -/
def invokeExtendKVCache {α : Type} (k_cache v_cache : KVCache α)
    (k_src v_src : Nat → Nat → Nat → Nat → α)
    (query_length context_length : Nat → Nat)
    (batch_size block_length head_dim head_num quant : Nat)
    (kv_scale : Rat) (qs : QuantSpec α) : KVCache α × KVCache α :=
  (extendKV k_cache k_src query_length context_length batch_size block_length
      head_dim head_num quant kv_scale qs,
   extendKV v_cache v_src query_length context_length batch_size block_length
      head_dim head_num quant kv_scale qs)

/-- Modelled from the spec: the kernel body behind
`invokeTransposeKVCache`.  A pure gather across each sequence's block
list, producing a contiguous (batch, head, token, dim) view: output head
`h` reads stored head `h / head_n_rep`; only positions
`pos < key_length[row]` are valid, positions beyond hold an unspecified
value (`undef`); dequantizes with `kv_scale` when `quant_policy ≠ 0`. -/
def transposeKV {α : Type} (cache : KVCache α) (key_length : Nat → Nat)
    (block_length head_n_rep quant_policy : Nat) (kv_scale : Rat)
    (qs : QuantSpec α) (undef : α) : Nat → Nat → Nat → Nat → α :=
  fun row head pos dim =>
    if pos < key_length row then
      let v := cache row (pos / block_length) (head / head_n_rep)
                 (pos % block_length) dim
      if quant_policy = 0 then v else qs.decode kv_scale v
    else
      undef

/-- Modelled from the spec: `invokeTransposeKVCache` gathers both the key
cache and the value cache with the same geometry. -/
def invokeTransposeKVCache {α : Type} (k_cache v_cache : KVCache α)
    (key_length : Nat → Nat) (block_length head_n_rep quant_policy : Nat)
    (kv_scale : Rat) (qs : QuantSpec α) (undef : α) :
    (Nat → Nat → Nat → Nat → α) × (Nat → Nat → Nat → Nat → α) :=
  (transposeKV k_cache key_length block_length head_n_rep quant_policy kv_scale qs undef,
   transposeKV v_cache key_length block_length head_n_rep quant_policy kv_scale qs undef)

/-! ## Claim theorems for the KV cache -/

/-- Reading back (at `head_n_rep = 1`, `quant_policy = 0`) a position that
a `quant = 0` extend wrote into one cache tensor yields the written source
element. -/
theorem transposeKV_extendKV {α : Type} (cache : KVCache α)
    (src : Nat → Nat → Nat → Nat → α)
    (query_length context_length key_length : Nat → Nat)
    (batch_size block_length head_dim head_num : Nat)
    (s s' : Rat) (qs qs' : QuantSpec α) (undef : α)
    (row head pos dim : Nat)
    (hrow : row < batch_size) (hhead : head < head_num) (hdim : dim < head_dim)
    (hblk : 0 < block_length)
    (hlo : context_length row - query_length row ≤ pos)
    (hhi : pos < context_length row)
    (hkey : pos < key_length row) :
    transposeKV (extendKV cache src query_length context_length batch_size
        block_length head_dim head_num 0 s qs)
      key_length block_length 1 0 s' qs' undef row head pos dim =
      src row (pos - (context_length row - query_length row)) head dim := by
  have hdm : pos / block_length * block_length + pos % block_length = pos := by
    conv_lhs => rw [Nat.mul_comm]
    exact Nat.div_add_mod pos block_length
  unfold transposeKV extendKV
  rw [if_pos hkey]
  simp only [Nat.div_one, hdm]
  have hcond : row < batch_size ∧ head < head_num ∧ dim < head_dim ∧
      pos % block_length < block_length ∧
      context_length row - query_length row ≤ pos ∧ pos < context_length row :=
    ⟨hrow, hhead, hdim, Nat.mod_lt _ hblk, hlo, hhi⟩
  rw [if_pos hcond]
  simp

/-- Claim C2: with `quant_policy = 0`, writing key/value vectors with
`invokeExtendKVCache` and reading them back with
`invokeTransposeKVCache` (`head_n_rep = 1`) reproduces the original
vectors bit-for-bit at every valid (row, head, token) position — for any
element type, any prior cache contents, and any scale arguments. -/
theorem extend_transpose_roundtrip {α : Type}
    (k_cache v_cache : KVCache α) (k_src v_src : Nat → Nat → Nat → Nat → α)
    (query_length context_length key_length : Nat → Nat)
    (batch_size block_length head_dim head_num : Nat)
    (s s' : Rat) (qs qs' : QuantSpec α) (undef : α)
    (row head pos dim : Nat)
    (hrow : row < batch_size) (hhead : head < head_num) (hdim : dim < head_dim)
    (hblk : 0 < block_length)
    (hlo : context_length row - query_length row ≤ pos)
    (hhi : pos < context_length row)
    (hkey : pos < key_length row) :
    let caches := invokeExtendKVCache k_cache v_cache k_src v_src query_length
      context_length batch_size block_length head_dim head_num 0 s qs
    let outs := invokeTransposeKVCache caches.1 caches.2 key_length
      block_length 1 0 s' qs' undef
    outs.1 row head pos dim =
      k_src row (pos - (context_length row - query_length row)) head dim ∧
    outs.2 row head pos dim =
      v_src row (pos - (context_length row - query_length row)) head dim :=
  ⟨transposeKV_extendKV k_cache k_src query_length context_length key_length
      batch_size block_length head_dim head_num s s' qs qs' undef
      row head pos dim hrow hhead hdim hblk hlo hhi hkey,
   transposeKV_extendKV v_cache v_src query_length context_length key_length
      batch_size block_length head_dim head_num s s' qs qs' undef
      row head pos dim hrow hhead hdim hblk hlo hhi hkey⟩

/-- Witness for C2: a concrete round trip over `Int` elements. -/
theorem extend_transpose_roundtrip_witness :
    (invokeTransposeKVCache
        (invokeExtendKVCache (fun _ _ _ _ _ => (0 : Int)) (fun _ _ _ _ _ => 0)
          (fun r p h d => r + 10 * p + 100 * h + 1000 * d)
          (fun r p h d => 5 + r + 10 * p + 100 * h + 1000 * d)
          (fun _ => 3) (fun _ => 3) 1 2 1 1 0 0 ⟨fun _ x => x, fun _ x => x⟩).1
        (invokeExtendKVCache (fun _ _ _ _ _ => (0 : Int)) (fun _ _ _ _ _ => 0)
          (fun r p h d => r + 10 * p + 100 * h + 1000 * d)
          (fun r p h d => 5 + r + 10 * p + 100 * h + 1000 * d)
          (fun _ => 3) (fun _ => 3) 1 2 1 1 0 0 ⟨fun _ x => x, fun _ x => x⟩).2
        (fun _ => 3) 2 1 0 0 ⟨fun _ x => x, fun _ x => x⟩ 0).1 0 0 2 0 = 20 ∧
    (invokeTransposeKVCache
        (invokeExtendKVCache (fun _ _ _ _ _ => (0 : Int)) (fun _ _ _ _ _ => 0)
          (fun r p h d => r + 10 * p + 100 * h + 1000 * d)
          (fun r p h d => 5 + r + 10 * p + 100 * h + 1000 * d)
          (fun _ => 3) (fun _ => 3) 1 2 1 1 0 0 ⟨fun _ x => x, fun _ x => x⟩).1
        (invokeExtendKVCache (fun _ _ _ _ _ => (0 : Int)) (fun _ _ _ _ _ => 0)
          (fun r p h d => r + 10 * p + 100 * h + 1000 * d)
          (fun r p h d => 5 + r + 10 * p + 100 * h + 1000 * d)
          (fun _ => 3) (fun _ => 3) 1 2 1 1 0 0 ⟨fun _ x => x, fun _ x => x⟩).2
        (fun _ => 3) 2 1 0 0 ⟨fun _ x => x, fun _ x => x⟩ 0).2 0 0 2 0 = 25 := by
  have h := extend_transpose_roundtrip
    (fun _ _ _ _ _ => (0 : Int)) (fun _ _ _ _ _ => 0)
    (fun r p h d => r + 10 * p + 100 * h + 1000 * d)
    (fun r p h d => 5 + r + 10 * p + 100 * h + 1000 * d)
    (fun _ => 3) (fun _ => 3) (fun _ => 3) 1 2 1 1 0 0
    ⟨fun _ x => x, fun _ x => x⟩ ⟨fun _ x => x, fun _ x => x⟩ 0
    0 0 2 0 (by decide) (by decide) (by decide) (by decide)
    (by decide) (by decide) (by decide)
  exact ⟨h.1.trans (by decide), h.2.trans (by decide)⟩

/-- Claim C5: for `head_n_rep = r > 0`, every output head index `h` below
`stored_head_count * r` and every valid token position, the output of
`invokeTransposeKVCache` at head `h` equals the cache contents of stored
head `h / r`; equivalently, all output heads of the group
`[k * r, (k + 1) * r)` replicate stored head `k`, so the output covers
`stored_head_count * r` heads. -/
theorem transposeKVCache_head_replication {α : Type}
    (k_cache v_cache : KVCache α) (key_length : Nat → Nat)
    (block_length r stored_head_count : Nat) (s : Rat) (qs : QuantSpec α)
    (undef : α) (row head pos dim k : Nat)
    (_hr : 0 < r) (hhead : head < stored_head_count * r)
    (hpos : pos < key_length row)
    (hlo : k * r ≤ head) (hhi : head < (k + 1) * r) :
    let outs := invokeTransposeKVCache k_cache v_cache key_length
      block_length r 0 s qs undef
    outs.1 row head pos dim =
      k_cache row (pos / block_length) (head / r) (pos % block_length) dim ∧
    outs.2 row head pos dim =
      v_cache row (pos / block_length) (head / r) (pos % block_length) dim ∧
    head / r = k ∧ head / r < stored_head_count := by
  intro outs
  have hdiv : head / r = k := Nat.div_eq_of_lt_le hlo hhi
  have hlt : head / r < stored_head_count := by
    rcases Nat.lt_or_ge (head / r) stored_head_count with h | h
    · exact h
    · exact absurd hhead (by
        have h1 := Nat.mul_le_mul_right r h
        have h2 := Nat.div_mul_le_self head r
        omega)
  refine ⟨?_, ?_, hdiv, hlt⟩ <;>
  · show transposeKV _ _ _ _ _ _ _ _ _ _ _ _ = _
    unfold transposeKV
    rw [if_pos hpos]
    simp

/-- Witness for C5: a concrete gather with `r = 2`; output heads 2 and 3
both read stored head 1. -/
theorem transposeKVCache_head_replication_witness :
    (invokeTransposeKVCache (fun _ _ h _ _ => (100 * h : Int))
        (fun _ _ h _ _ => (200 * h : Int)) (fun _ => 4) 2 2 0 0
        ⟨fun _ x => x, fun _ x => x⟩ 0).1 0 3 1 0 = 100 ∧
    (invokeTransposeKVCache (fun _ _ h _ _ => (100 * h : Int))
        (fun _ _ h _ _ => (200 * h : Int)) (fun _ => 4) 2 2 0 0
        ⟨fun _ x => x, fun _ x => x⟩ 0).2 0 3 1 0 = 200 := by
  have h := transposeKVCache_head_replication
    (fun _ _ h _ _ => (100 * h : Int)) (fun _ _ h _ _ => (200 * h : Int))
    (fun _ => 4) 2 2 2 0 ⟨fun _ x => x, fun _ x => x⟩ 0
    0 3 1 0 1 (by decide) (by decide) (by decide) (by decide) (by decide)
  exact ⟨h.1.trans (by decide), h.2.1.trans (by decide)⟩

/-- Claim C9: with `quant_policy = 0`, the results of
`invokeExtendKVCache` and `invokeTransposeKVCache` do not depend on the
`kv_scale` argument (nor on the quantization codec): two runs on
identical inputs differing only in scale produce identical cache contents
and identical transposed output. -/
theorem kv_scale_independent_when_unquantized {α : Type}
    (k_cache v_cache : KVCache α) (k_src v_src : Nat → Nat → Nat → Nat → α)
    (query_length context_length key_length : Nat → Nat)
    (batch_size block_length head_dim head_num head_n_rep : Nat)
    (s s' : Rat) (qs qs' : QuantSpec α) (undef : α) :
    invokeExtendKVCache k_cache v_cache k_src v_src query_length
        context_length batch_size block_length head_dim head_num 0 s qs =
      invokeExtendKVCache k_cache v_cache k_src v_src query_length
        context_length batch_size block_length head_dim head_num 0 s' qs' ∧
    invokeTransposeKVCache k_cache v_cache key_length block_length
        head_n_rep 0 s qs undef =
      invokeTransposeKVCache k_cache v_cache key_length block_length
        head_n_rep 0 s' qs' undef := by
  constructor
  · unfold invokeExtendKVCache extendKV
    refine Prod.ext ?_ ?_ <;>
    · simp only
      funext row blk head slot dim
      split
      · simp
      · rfl
  · unfold invokeTransposeKVCache transposeKV
    refine Prod.ext ?_ ?_ <;>
    · simp only
      funext row head pos dim
      split
      · simp
      · rfl

/-! ## Output assembler: UpdateOutput (spec 4.6, 7) -/

/-- One externally-owned per-request output buffer
(`request_output_ids_ptrs[i]`) together with its length cursor
(`*request_seqlen_ptrs[i]`). -/
structure RequestBuf where
  buf : Nat → Int
  seqlen : Nat

/-- Modelled from the spec: one `invokeUpdateOutput` call acting on one
request.  Missing from the source: the kernel body behind
`invokeUpdateOutput` (`llama_kernels.cu` is not in the snapshot).  Per
the spec, the call scatters the just-produced token into the request's
external buffer, advancing the cursor by one when `token_generated` is
true; capacity overflow (cursor at `max_session_len`) is handled by
truncating — dropping — the write rather than overflowing. -/
def updateOutputStep (max_session_len : Nat) (token_generated : Bool)
    (tok : Int) (r : RequestBuf) : RequestBuf :=
  if token_generated ∧ r.seqlen < max_session_len then
    { buf := fun i => if i = r.seqlen then tok else r.buf i,
      seqlen := r.seqlen + 1 }
  else r

/-- Modelled from the spec: `invokeUpdateOutput` over the whole batch —
each request `i` is updated independently with its own token
`output_ids i`. -/
def invokeUpdateOutput (max_session_len : Nat) (token_generated : Bool)
    (output_ids : Nat → Int) (st : Nat → RequestBuf) : Nat → RequestBuf :=
  fun i => updateOutputStep max_session_len token_generated (output_ids i) (st i)

/-- A whole decode run: a sequence of `invokeUpdateOutput` calls, one per
step, each with its own `token_generated` flag and dense output ids. -/
def updateOutputRun (max_session_len : Nat)
    (calls : List (Bool × (Nat → Int))) (st : Nat → RequestBuf) :
    Nat → RequestBuf :=
  calls.foldl (fun st c => invokeUpdateOutput max_session_len c.1 c.2 st) st

/-- Claim C3: for every request `i` and every sequence of
`invokeUpdateOutput` calls starting from a cursor `≤ max_session_len`,
no call ever writes `request_output_ids_ptrs[i]` at an index
`≥ max_session_len` (those positions keep their initial contents), the
cursor never exceeds `max_session_len` (once full, writes are dropped),
and a single call advances the cursor by exactly one iff
`token_generated` is true and capacity remains. -/
theorem updateOutput_no_overflow (max_session_len : Nat)
    (calls : List (Bool × (Nat → Int))) (st : Nat → RequestBuf) (i : Nat)
    (h0 : (st i).seqlen ≤ max_session_len) :
    (∀ idx, max_session_len ≤ idx →
      (updateOutputRun max_session_len calls st i).buf idx = (st i).buf idx) ∧
    (updateOutputRun max_session_len calls st i).seqlen ≤ max_session_len ∧
    (∀ (tg : Bool) (out : Nat → Int) (st' : Nat → RequestBuf),
      (invokeUpdateOutput max_session_len tg out st' i).seqlen =
        (st' i).seqlen +
          (if tg = true ∧ (st' i).seqlen < max_session_len then 1 else 0)) := by
  refine ⟨?_, ?_, ?_⟩
  · intro idx hidx
    induction calls generalizing st with
    | nil => rfl
    | cons c t ih =>
      show (updateOutputRun max_session_len t
        (invokeUpdateOutput max_session_len c.1 c.2 st) i).buf idx = _
      rw [ih (invokeUpdateOutput max_session_len c.1 c.2 st)]
      · show (updateOutputStep max_session_len c.1 (c.2 i) (st i)).buf idx = _
        unfold updateOutputStep
        split
        · simp only
          rw [if_neg]
          omega
        · rfl
      · show (updateOutputStep max_session_len c.1 (c.2 i) (st i)).seqlen ≤ _
        unfold updateOutputStep
        split
        · simp only
          omega
        · exact h0
  · induction calls generalizing st with
    | nil => exact h0
    | cons c t ih =>
      refine ih (invokeUpdateOutput max_session_len c.1 c.2 st) ?_
      show (updateOutputStep max_session_len c.1 (c.2 i) (st i)).seqlen ≤ _
      unfold updateOutputStep
      split
      · simp only
        omega
      · exact h0
  · intro tg out st'
    show (updateOutputStep max_session_len tg (out i) (st' i)).seqlen = _
    unfold updateOutputStep
    split
    · rfl
    · rfl

/-- Witness for C3: three generating calls against capacity 2 — index 2
keeps its initial value and the cursor saturates at 2. -/
theorem updateOutput_no_overflow_witness :
    (updateOutputRun 2 [(true, fun _ => 5), (true, fun _ => 6),
        (true, fun _ => 7)] (fun _ => ⟨fun _ => 0, 0⟩) 0).buf 2 = 0 ∧
    (updateOutputRun 2 [(true, fun _ => 5), (true, fun _ => 6),
        (true, fun _ => 7)] (fun _ => ⟨fun _ => 0, 0⟩) 0).seqlen ≤ 2 := by
  have h := updateOutput_no_overflow 2
    [(true, fun _ => 5), (true, fun _ => 6), (true, fun _ => 7)]
    (fun _ => ⟨fun _ => 0, 0⟩) 0 (by decide)
  exact ⟨h.1 2 (by decide), h.2.1⟩

/-! ## Output assembler: CompactOutputIds (spec 4.6) -/

/-- Per-row copy length of `invokeCompactOutputIds`: the row's sequence
length, plus one exactly when `token_generated` is true (the call then
includes the just-produced token). -/
def outputRowLen (sequence_lengths : Nat → Nat) (token_generated : Bool)
    (row : Nat) : Nat :=
  sequence_lengths row + (if token_generated then 1 else 0)

/-- The valid prefix of one row of the fixed-width `output_ids` tensor. -/
def outputRow (output_ids : Nat → Nat → Int) (len row : Nat) : List Int :=
  (List.range len).map (fun j => output_ids row j)

/-- Modelled from the spec: the kernel body behind
`invokeCompactOutputIds` (`llama_kernels.cu` is not in the snapshot).
Re-packs the batch's ragged output ids so row `i`'s valid ids begin
immediately after row `i - 1`'s, eliminating padding gaps
(`[aaa, bbbb, cc, ddd] -> aaabbbbccddd`). -/
def invokeCompactOutputIds (output_ids : Nat → Nat → Int)
    (sequence_lengths : Nat → Nat) (token_generated : Bool)
    (batch_size : Nat) : List Int :=
  ((List.range batch_size).map (fun row =>
    outputRow output_ids (outputRowLen sequence_lengths token_generated row)
      row)).flatten

/-- Exclusive prefix sum of the per-row copy lengths: where row `i`'s ids
start inside the compacted buffer. -/
def cuOutputLen (sequence_lengths : Nat → Nat) (token_generated : Bool)
    (i : Nat) : Nat :=
  ((List.range i).map (outputRowLen sequence_lengths token_generated)).sum

/-- Re-splitting a flattened list of lists at the prefix-sum boundaries
of the original lengths recovers each original list. -/
theorem flatten_drop_take {α : Type} (ls : List (List α)) (i : Nat)
    (h : i < ls.length) :
    (ls.flatten.drop (((ls.take i).map List.length).sum)).take
        (ls.get ⟨i, h⟩).length = ls.get ⟨i, h⟩ := by
  induction ls generalizing i with
  | nil => exact absurd h (by simp)
  | cons a t ih =>
    cases i with
    | zero =>
      simp only [List.take_zero, List.map_nil, List.sum_nil, List.drop_zero,
        List.flatten_cons, List.get]
      exact List.take_left a t.flatten
    | succ i =>
      have hi : i < t.length := by simpa using h
      have hstep : (a ++ t.flatten).drop
          (a.length + ((t.take i).map List.length).sum) =
          t.flatten.drop (((t.take i).map List.length).sum) := by
        rw [← List.drop_drop, List.drop_left]
      simp only [List.take_succ_cons, List.map_cons, List.sum_cons,
        List.flatten_cons, List.get, hstep]
      exact ih i hi

/-- Claim C4: `invokeCompactOutputIds` places row `i`'s valid ids
contiguously starting at the exclusive prefix sum of the earlier rows'
copy lengths, so re-splitting the compacted buffer at the prefix-sum
boundaries reproduces the original ragged rows exactly; and the per-row
copy length differs by exactly one between `token_generated = true` and
`token_generated = false`. -/
theorem compactOutputIds_roundtrip (output_ids : Nat → Nat → Int)
    (sequence_lengths : Nat → Nat) (token_generated : Bool)
    (batch_size i : Nat) (h : i < batch_size) :
    ((invokeCompactOutputIds output_ids sequence_lengths token_generated
        batch_size).drop
      (cuOutputLen sequence_lengths token_generated i)).take
      (outputRowLen sequence_lengths token_generated i) =
      outputRow output_ids
        (outputRowLen sequence_lengths token_generated i) i ∧
    outputRowLen sequence_lengths true i =
      outputRowLen sequence_lengths false i + 1 := by
  constructor
  · have hlen : i < ((List.range batch_size).map (fun row =>
        outputRow output_ids
          (outputRowLen sequence_lengths token_generated row) row)).length := by
      simpa using h
    have hget : ((List.range batch_size).map (fun row =>
        outputRow output_ids
          (outputRowLen sequence_lengths token_generated row) row)).get
        ⟨i, hlen⟩ =
        outputRow output_ids
          (outputRowLen sequence_lengths token_generated i) i := by
      simp [List.get_eq_getElem]
    have hpref : ((((List.range batch_size).map (fun row =>
        outputRow output_ids
          (outputRowLen sequence_lengths token_generated row) row)).take
          i).map List.length).sum =
        cuOutputLen sequence_lengths token_generated i := by
      rw [← List.map_take, List.take_range, Nat.min_eq_left (Nat.le_of_lt h),
        List.map_map, cuOutputLen]
      congr 1
      apply List.map_congr_left
      intro x _
      simp [outputRow]
    have := flatten_drop_take ((List.range batch_size).map (fun row =>
        outputRow output_ids
          (outputRowLen sequence_lengths token_generated row) row)) i hlen
    rw [hget, hpref] at this
    calc ((invokeCompactOutputIds output_ids sequence_lengths token_generated
            batch_size).drop
          (cuOutputLen sequence_lengths token_generated i)).take
          (outputRowLen sequence_lengths token_generated i)
        = ((invokeCompactOutputIds output_ids sequence_lengths token_generated
            batch_size).drop
          (cuOutputLen sequence_lengths token_generated i)).take
          (outputRow output_ids
            (outputRowLen sequence_lengths token_generated i) i).length := by
          simp [outputRow]
      _ = outputRow output_ids
            (outputRowLen sequence_lengths token_generated i) i := this
  · simp [outputRowLen]

/-- Witness for C4: the spec's worked example — rows of lengths 3, 4, 2, 3
compact to a 12-element buffer with row 1 recoverable at offset 3. -/
theorem compactOutputIds_roundtrip_witness :
    ((invokeCompactOutputIds (fun r j => 10 * r + j)
        (fun r => [3, 4, 2, 3].getD r 0) false 4).drop
      (cuOutputLen (fun r => [3, 4, 2, 3].getD r 0) false 1)).take
      (outputRowLen (fun r => [3, 4, 2, 3].getD r 0) false 1) =
      outputRow (fun r j => 10 * r + j)
        (outputRowLen (fun r => [3, 4, 2, 3].getD r 0) false 1) 1 ∧
    outputRowLen (fun r => [3, 4, 2, 3].getD r 0) true 1 =
      outputRowLen (fun r => [3, 4, 2, 3].getD r 0) false 1 + 1 :=
  compactOutputIds_roundtrip (fun r j => 10 * r + j)
    (fun r => [3, 4, 2, 3].getD r 0) false 4 1 (by decide)

/-! ## Batch input normalizer: PadLastTokenIds (spec 4.5) -/

/-- Modelled from the spec: the kernel body behind
`invokePadLastTokenIds` (`llama_kernels.cu` is not in the snapshot).
For each row, the token at index `context_length[row] - 1` is written
into the row's fixed trailing slot (column `max_context_len - 1`) of the
token-id tensor; all other positions are left unchanged. -/
def invokePadLastTokenIds (token_ids : Nat → Nat → Int)
    (context_length : Nat → Nat) (max_context_len : Nat) :
    Nat → Nat → Int :=
  fun row pos =>
    if pos = max_context_len - 1 then
      token_ids row (context_length row - 1)
    else
      token_ids row pos

/-- The dense (batch,) array of last-valid-token ids: each row's fixed
trailing slot after padding. -/
def lastTokenIds (token_ids : Nat → Nat → Int) (context_length : Nat → Nat)
    (max_context_len : Nat) (row : Nat) : Int :=
  invokePadLastTokenIds token_ids context_length max_context_len row
    (max_context_len - 1)

/-- Claim C7: for every row with `context_length[row] ≥ 1`,
`invokePadLastTokenIds` writes the token found at index
`context_length[row] - 1` of that row into the row's fixed trailing
slot, so the dense (batch,) view holds exactly each row's own last valid
token. -/
theorem padLastTokenIds_last_valid (token_ids : Nat → Nat → Int)
    (context_length : Nat → Nat) (max_context_len row : Nat)
    (_h : 1 ≤ context_length row) :
    lastTokenIds token_ids context_length max_context_len row =
      token_ids row (context_length row - 1) := by
  unfold lastTokenIds invokePadLastTokenIds
  rw [if_pos rfl]

/-- Witness for C7: the spec's example lengths `[5, 11, 9, 8, 4]` — row 0
of length 5 yields its token at index 4 (the `"ABCDe"` / `'e'`
example). -/
theorem padLastTokenIds_last_valid_witness :
    lastTokenIds (fun r j => 100 * r + j)
      (fun r => [5, 11, 9, 8, 4].getD r 0) 11 0 = 4 := by
  have h := padLastTokenIds_last_valid (fun r j => 100 * r + j)
    (fun r => [5, 11, 9, 8, 4].getD r 0) 11 0 (by decide)
  exact h.trans (by decide)

/-! ## Diagnostic dump (embedded from the code in
`llama_kernels.h`, lines 124-151) -/

/-- The indexes of the host buffer printed by the head-sample loop of
`dump` when `full = false`: `for (int i = 0; i < 8; ++i)`.  Indexes are
`Int` because the C loop variable is a signed `int`. -/
def dumpHeadIdx : List Int := (List.range 8).map (fun i : Nat => (i : Int))

/-- The indexes printed by the tail-sample loop of `dump` when
`full = false`: `for (int i = size - 8; i < size; ++i)`. -/
def dumpTailIdx (size : Int) : List Int :=
  (List.range 8).map (fun i : Nat => size - 8 + (i : Int))

/-- All indexes of the copied host buffer that `dump` reads when
`full = false`. -/
def dumpSampleIdx (size : Int) : List Int := dumpHeadIdx ++ dumpTailIdx size

/-- Index `i` is a valid access into a buffer of `size` elements. -/
def dumpInBounds (size i : Int) : Prop := 0 ≤ i ∧ i < size

/-- Membership in the head-sample index list is exactly `0 ≤ i < 8`. -/
theorem mem_dumpHeadIdx (i : Int) : i ∈ dumpHeadIdx ↔ 0 ≤ i ∧ i < 8 := by
  unfold dumpHeadIdx
  constructor
  · intro h
    rcases List.mem_map.mp h with ⟨j, hj, h2⟩
    rw [List.mem_range] at hj
    omega
  · intro h
    refine List.mem_map.mpr ⟨i.toNat, ?_, by omega⟩
    rw [List.mem_range]
    omega

/-- Membership in the tail-sample index list is exactly
`size - 8 ≤ i < size`. -/
theorem mem_dumpTailIdx (size i : Int) :
    i ∈ dumpTailIdx size ↔ size - 8 ≤ i ∧ i < size := by
  unfold dumpTailIdx
  constructor
  · intro h
    rcases List.mem_map.mp h with ⟨j, hj, h2⟩
    rw [List.mem_range] at hj
    omega
  · intro h
    refine List.mem_map.mpr ⟨(i - (size - 8)).toNat, ?_, by omega⟩
    rw [List.mem_range]
    omega

/-- Claim C10: with `full = false`, the sample accesses of `dump` are
exactly indexes `0..7` and `size-8..size-1`; they are all in bounds iff
`size ≥ 8`, so `size ≥ 8` is an unstated precondition of the interface;
and for `8 ≤ size < 16` the two sample ranges overlap (at `size - 8`)
while staying in bounds. -/
theorem dump_sample_bounds (size : Int) :
    ((∀ i, i ∈ dumpSampleIdx size → dumpInBounds size i) ↔ 8 ≤ size) ∧
    (8 ≤ size → size < 16 →
      (size - 8) ∈ dumpHeadIdx ∧ (size - 8) ∈ dumpTailIdx size) := by
  constructor
  · constructor
    · intro hall
      have h7 : dumpInBounds size 7 := by
        apply hall
        unfold dumpSampleIdx
        rw [List.mem_append, mem_dumpHeadIdx]
        exact Or.inl (by omega)
      rcases h7 with ⟨_, h7b⟩
      omega
    · intro hsize i hi
      unfold dumpSampleIdx at hi
      rw [List.mem_append, mem_dumpHeadIdx, mem_dumpTailIdx] at hi
      unfold dumpInBounds
      rcases hi with h | h <;> omega
  · intro h8 h16
    exact ⟨(mem_dumpHeadIdx _).mpr ⟨by omega, by omega⟩,
      (mem_dumpTailIdx _ _).mpr ⟨by omega, by omega⟩⟩

/-- Witness for C10: at `size = 10` the head index 7 is in bounds and
index `2 = size - 8` is printed by both loops. -/
theorem dump_sample_bounds_witness :
    dumpInBounds 10 7 ∧ (2 : Int) ∈ dumpHeadIdx ∧ (2 : Int) ∈ dumpTailIdx 10 := by
  have h := dump_sample_bounds 10
  have h2 := h.2 (by decide) (by decide)
  refine ⟨?_, by simpa using h2.1, by simpa using h2.2⟩
  apply h.1.mpr (by decide)
  unfold dumpSampleIdx
  rw [List.mem_append, mem_dumpHeadIdx]
  exact Or.inl (by omega)

/-! ## Copy primitives: IndexedCopy (spec 4.1) -/

/-- Device memory as a byte-addressed total map. -/
def Mem : Type := Nat → Int

/-- One copy: `size` bytes from address `src` to address `dst`. -/
structure CopyOp where
  src : Nat
  dst : Nat
  size : Nat
  deriving DecidableEq

/-- Execute one copy against a memory state: an address inside the
destination range `[dst, dst + size)` takes the corresponding source
byte of the pre-copy memory; every other address is unchanged. -/
def applyCopy (m : Mem) (c : CopyOp) : Mem :=
  fun a =>
    if c.dst ≤ a ∧ a < c.dst + c.size then m (c.src + (a - c.dst)) else m a

/-- The copy list of one `invokeIndexedCopy` call: copy `j` moves
`elem_sz j` bytes from `src_ptrs (src_idx j)` to
`dst_ptrs (dst_idx j)`. -/
def copyOps (src_ptrs dst_ptrs elem_sz src_idx dst_idx : Nat → Nat)
    (n_copys : Nat) : List CopyOp :=
  (List.range n_copys).map (fun j =>
    ⟨src_ptrs (src_idx j), dst_ptrs (dst_idx j), elem_sz j⟩)

/-- Modelled from the spec: the kernel body behind `invokeIndexedCopy`
(`llama_kernels.cu` is not in the snapshot).  Performs the `n_copys`
copies of one call; the embedding executes them in index order (the spec
declares the copies of one call independent and order-free, which is a
property to be established, not assumed). -/
def invokeIndexedCopy (src_ptrs dst_ptrs elem_sz src_idx dst_idx : Nat → Nat)
    (n_copys : Nat) (m : Mem) : Mem :=
  (copyOps src_ptrs dst_ptrs elem_sz src_idx dst_idx n_copys).foldl applyCopy m

/-- Byte ranges `[a, a + n)` and `[b, b + k)` are disjoint. -/
def RangeDisjoint (a n b k : Nat) : Prop := a + n ≤ b ∨ b + k ≤ a

instance (a n b k : Nat) : Decidable (RangeDisjoint a n b k) := by
  unfold RangeDisjoint
  infer_instance

/-- Two copies do not interfere: their destination ranges are disjoint
and each destination range is disjoint from the other's source range. -/
def NoInterfere (c d : CopyOp) : Prop :=
  RangeDisjoint c.dst c.size d.dst d.size ∧
  RangeDisjoint c.dst c.size d.src d.size ∧
  RangeDisjoint d.dst d.size c.src c.size

instance (c d : CopyOp) : Decidable (NoInterfere c d) := by
  unfold NoInterfere
  infer_instance

/-- `NoInterfere` is symmetric. -/
theorem noInterfere_symm : Symmetric NoInterfere := by
  intro c d h
  rcases h with ⟨h1, h2, h3⟩
  unfold RangeDisjoint at h1 h2 h3
  refine ⟨?_, ?_, ?_⟩ <;> unfold RangeDisjoint <;> omega

/-- Addresses outside every destination range of a copy list are
unchanged by folding the list. -/
theorem foldl_applyCopy_untouched (l : List CopyOp) :
    ∀ (m : Mem) (a : Nat),
      (∀ c ∈ l, ¬(c.dst ≤ a ∧ a < c.dst + c.size)) →
      l.foldl applyCopy m a = m a := by
  induction l with
  | nil =>
    intro m a _
    rfl
  | cons c t ih =>
    intro m a h
    show t.foldl applyCopy (applyCopy m c) a = m a
    rw [ih (applyCopy m c) a (fun d hd => h d (List.mem_cons_of_mem c hd))]
    unfold applyCopy
    rw [if_neg (h c (List.mem_cons_self c t))]

/-- After folding a pairwise non-interfering copy list, every
destination byte of a member copy holds the corresponding byte the
source range held before the call. -/
theorem foldl_applyCopy_reads (l : List CopyOp) :
    ∀ (m : Mem) (c : CopyOp), c ∈ l → l.Pairwise NoInterfere →
      ∀ off, off < c.size →
        l.foldl applyCopy m (c.dst + off) = m (c.src + off) := by
  induction l with
  | nil =>
    intro m c hc
    cases hc
  | cons x t ih =>
    intro m c hc hp off hoff
    have hp1 : ∀ d ∈ t, NoInterfere x d := (List.pairwise_cons.mp hp).1
    have hp2 : t.Pairwise NoInterfere := (List.pairwise_cons.mp hp).2
    rcases List.mem_cons.mp hc with rfl | hct
    · show t.foldl applyCopy (applyCopy m c) (c.dst + off) = m (c.src + off)
      have hunt : ∀ d ∈ t,
          ¬(d.dst ≤ c.dst + off ∧ c.dst + off < d.dst + d.size) := by
        intro d hd
        have h1 := (hp1 d hd).1
        unfold RangeDisjoint at h1
        omega
      rw [foldl_applyCopy_untouched t (applyCopy m c) (c.dst + off) hunt]
      unfold applyCopy
      rw [if_pos ⟨Nat.le_add_right _ _, by omega⟩]
      congr 1
      omega
    · show t.foldl applyCopy (applyCopy m x) (c.dst + off) = m (c.src + off)
      rw [ih (applyCopy m x) c hct hp2 off hoff]
      have hns : ¬(x.dst ≤ c.src + off ∧ c.src + off < x.dst + x.size) := by
        have h2 := (hp1 c hct).2.1
        unfold RangeDisjoint at h2
        omega
      unfold applyCopy
      rw [if_neg hns]

/-- Non-interfering copies commute. -/
theorem applyCopy_comm (c d : CopyOp) (h : NoInterfere c d) (m : Mem) :
    applyCopy (applyCopy m c) d = applyCopy (applyCopy m d) c := by
  funext a
  rcases h with ⟨hdd, hcd, hdc⟩
  unfold RangeDisjoint at hdd hcd hdc
  show (if d.dst ≤ a ∧ a < d.dst + d.size then
      applyCopy m c (d.src + (a - d.dst)) else applyCopy m c a) =
    (if c.dst ≤ a ∧ a < c.dst + c.size then
      applyCopy m d (c.src + (a - c.dst)) else applyCopy m d a)
  by_cases h1 : d.dst ≤ a ∧ a < d.dst + d.size
  · have hnc : ¬(c.dst ≤ a ∧ a < c.dst + c.size) := by omega
    rw [if_pos h1, if_neg hnc]
    have hna : ¬(c.dst ≤ d.src + (a - d.dst) ∧
        d.src + (a - d.dst) < c.dst + c.size) := by omega
    unfold applyCopy
    rw [if_neg hna, if_pos h1]
  · rw [if_neg h1]
    by_cases h2 : c.dst ≤ a ∧ a < c.dst + c.size
    · rw [if_pos h2]
      have hnb : ¬(d.dst ≤ c.src + (a - c.dst) ∧
          c.src + (a - c.dst) < d.dst + d.size) := by omega
      unfold applyCopy
      rw [if_pos h2, if_neg hnb]
    · rw [if_neg h2]
      unfold applyCopy
      rw [if_neg h2, if_neg h1]

/-- Claim C6 (counterexample): pairwise-disjoint destination ranges alone
do not make the copies of one call order-independent.  With identity
pointer tables, unit sizes and memory initially `a ↦ a`, the two copies
`0 → 1` and `1 → 2` have disjoint destinations `[1,2)` and `[2,3)`, yet
running them in index order differs (at address 2) from running them in
the swapped order obtained by permuting the index arrays: copy 0's
destination overlaps copy 1's source. -/
theorem indexedCopy_order_dependent :
    RangeDisjoint 1 1 2 1 ∧
    invokeIndexedCopy (fun j => j) (fun j => j) (fun _ => 1)
        (fun j => j) (fun j => j + 1) 2 (fun a => (a : Int)) 2 ≠
      invokeIndexedCopy (fun j => j) (fun j => j) (fun _ => 1)
        (fun j => 1 - j) (fun j => 2 - j) 2 (fun a => (a : Int)) 2 := by
  constructor
  · unfold RangeDisjoint
    omega
  · decide

/-- Claim C6 (amended): for every call whose copies are pairwise
non-interfering — destination byte ranges pairwise disjoint AND every
destination range disjoint from every other copy's source range — copy
`j` moves exactly `elem_sz j` bytes from `src_ptrs (src_idx j)` to
`dst_ptrs (dst_idx j)`, and the final memory state equals that of
performing the single copies sequentially in any order (any permutation
of the copy list, hence also any permutation of the index arrays). -/
theorem indexedCopy_independent
    (src_ptrs dst_ptrs elem_sz src_idx dst_idx : Nat → Nat)
    (n_copys : Nat) (m : Mem)
    (hni : (copyOps src_ptrs dst_ptrs elem_sz src_idx dst_idx
      n_copys).Pairwise NoInterfere) :
    (∀ j, j < n_copys → ∀ off, off < elem_sz j →
      invokeIndexedCopy src_ptrs dst_ptrs elem_sz src_idx dst_idx n_copys m
          (dst_ptrs (dst_idx j) + off) =
        m (src_ptrs (src_idx j) + off)) ∧
    (∀ l : List CopyOp,
      l.Perm (copyOps src_ptrs dst_ptrs elem_sz src_idx dst_idx n_copys) →
      l.foldl applyCopy m =
        invokeIndexedCopy src_ptrs dst_ptrs elem_sz src_idx dst_idx
          n_copys m) := by
  constructor
  · intro j hj off hoff
    exact foldl_applyCopy_reads
      (copyOps src_ptrs dst_ptrs elem_sz src_idx dst_idx n_copys) m
      ⟨src_ptrs (src_idx j), dst_ptrs (dst_idx j), elem_sz j⟩
      (List.mem_map.mpr ⟨j, List.mem_range.mpr hj, rfl⟩) hni off hoff
  · intro l hl
    unfold invokeIndexedCopy
    refine hl.foldl_eq' ?_ m
    intro x hx y hy z
    by_cases hxy : x = y
    · rw [hxy]
    · exact applyCopy_comm x y
        (hni.forall noInterfere_symm (hl.subset hx) (hl.subset hy) hxy) z

/-- Witness for C6's amended theorem: two non-interfering copies of two
bytes each over memory `a ↦ a`; destination byte `14 + 0` receives
source byte `4 + 0`. -/
theorem indexedCopy_independent_witness :
    invokeIndexedCopy (fun j => 4 * j) (fun j => 10 + 4 * j) (fun _ => 2)
      (fun j => j) (fun j => j) 2 (fun a => (a : Int)) 14 = 4 := by
  have h := indexedCopy_independent (fun j => 4 * j) (fun j => 10 + 4 * j)
    (fun _ => 2) (fun j => j) (fun j => j) 2 (fun a => (a : Int)) (by decide)
  have h2 := h.1 1 (by decide) 0 (by decide)
  exact h2.trans (by decide)

end Turbomind
